import Mathlib

/-!
Verification development for the gs_assist entity-resolution engine.

The Lean definitions below are shallow embeddings of the Python sources:

* `ChromaIndex`  — gsai_assist/services/managers/entity.py (EntityManager)
* `LtStore`      — gsai_assist/services/managers/entity_lt.py
                   (LightweightEntityStore)
* `Mapper`       — gsai_assist/services/preprocessing/entity_mapper.py
* `Pipe`         — gsai_assist/services/preprocessing/__init__.py (PipeLine)

Machine reals are modelled by `ℚ`; the sentence-transformer embedder and the
rapidfuzz ratio are external pure functions and enter as parameters.
-/

/-- Python str.lower, character-wise ASCII case mapping.  Core's
`String.toLower` is extensionally the same function but does not reduce in
the kernel, so the character map is spelled out. -/
def pyLower (s : String) : String := String.mk (s.data.map Char.toLower)

/-- Python builtin max on two numbers: returns the second iff it is
strictly greater. -/
def pyMax (a b : ℚ) : ℚ := if a < b then b else a

/-- Python str.split with a one-character separator, recursing over the
character list (core's `String.splitOn` is equivalent on these inputs but
does not reduce in the kernel).  Like Python, splitting the empty string
yields `[""]` and adjacent separators yield empty fields. -/
def pySplitAux (sep : Char) : List Char → List Char → List String
  | [], acc => [String.mk acc.reverse]
  | c :: cs, acc =>
    if c = sep then String.mk acc.reverse :: pySplitAux sep cs []
    else pySplitAux sep cs (c :: acc)

def pySplit (sep : Char) (s : String) : List String := pySplitAux sep s.data []

namespace ChromaIndex

/-- An entity snapshot as consumed by `EntityManager.sync_entity`:
the fields of the dict read by `_prepare_entity_data` and `sync_entity`.
`groups` is modelled as the list of group-name strings extracted from the
child rows (the dict/str branch of `_prepare_entity_data` only unwraps the
name), `doc_type` and `related_doctypes` may be absent (`None`). -/
structure EntitySnap where
  canonical_name : String
  aliases : String
  groups : List String
  doc_type : Option String
  related_doctypes : Option (List String)
  deriving DecidableEq

/-- Metadata of one Chroma record, after `_clean_metadata`: every value is a
plain string (`None` became `""`, the related-doctype list was comma-joined
by `sync_entity` before cleaning). -/
structure RecordMeta where
  canonical : String
  alias_ : String
  entity_group : String
  doc_type : String
  related_doctypes : String
  deriving DecidableEq

/-- One record of the `all_entities` Chroma collection. -/
structure ChromaRecord where
  id : String
  document : String
  embedding : List ℚ
  metadata : RecordMeta
  deriving DecidableEq

/-- The collection state: the multiset of records, kept as a list in
insertion order (`collection.add` appends, `collection.delete` removes). -/
abbrev IndexState := List ChromaRecord

inductive SyncErr where
  /-- ValueError("Entity must have a canonical_name"), surfaced to the user
  by the outer `frappe.throw`. -/
  | validation
  deriving DecidableEq

/-- `EntityManager._prepare_entity_data`: validates the canonical name,
splits/strips/filters the comma-joined aliases, appends the lower-cased
canonical name when no alias equals it case-insensitively, extracts
non-empty group names falling back to `["Default"]`. -/
def prepare_entity_data (entity : EntitySnap) :
    Except SyncErr (String × List String × List String) :=
  let canon := entity.canonical_name
  if canon = "" then Except.error SyncErr.validation
  else
    let aliases :=
      ((pySplit ',' entity.aliases).map String.trim).filter (fun a => a ≠ "")
    let canonical_lower := pyLower canon
    let aliases :=
      if canonical_lower ∈ aliases.map pyLower then aliases
      else aliases ++ [canonical_lower]
    let group_names := entity.groups.filter (fun g => g ≠ "")
    let group_names := if group_names = [] then ["Default"] else group_names
    Except.ok (canon, aliases, group_names)

/-- The metadata dict built inside `sync_entity` for one (group, alias)
pair, already passed through `_clean_metadata` (its only effect on these
values: a `None` doc_type becomes `""`; `related_doctypes` was already
comma-joined, with `or []` supplying the empty list for `None`). -/
def record_metadata (entity : EntitySnap) (canon group al : String) :
    RecordMeta :=
  { canonical := canon
    alias_ := al
    entity_group := group
    doc_type := entity.doc_type.getD ""
    related_doctypes := String.intercalate "," (entity.related_doctypes.getD []) }

/-- The batch of new records built by `sync_entity`: one per
(group, alias) pair, id `group::canon::alias`, document the alias.
The batched `embedder.encode(docs)` embeds each document independently, so
it is modelled per record. -/
def new_records (embedder : String → List ℚ) (entity : EntitySnap)
    (canon : String) (aliases group_names : List String) : List ChromaRecord :=
  group_names.flatMap (fun group =>
    aliases.map (fun al =>
      { id := group ++ "::" ++ canon ++ "::" ++ al
        document := al
        embedding := embedder al
        metadata := record_metadata entity canon group al }))

/-- `EntityManager.sync_entity`: validate and prepare, delete every record
whose metadata canonical equals the entity's canonical name, then add the
regenerated batch.  Returns the new collection state together with the
error surfaced to the caller (`frappe.throw`), if any. -/
def sync_entity (embedder : String → List ℚ) (entity : EntitySnap)
    (s : IndexState) : IndexState × Option SyncErr :=
  match prepare_entity_data entity with
  | Except.error e => (s, some e)
  | Except.ok (canon, aliases, group_names) =>
    let s1 := s.filter (fun r => ¬ r.metadata.canonical = canon)
    if aliases = [] then (s1, none)
    else (s1 ++ new_records embedder entity canon aliases group_names, none)

lemma mem_new_records_canonical {embedder entity canon aliases group_names}
    {r : ChromaRecord}
    (h : r ∈ new_records embedder entity canon aliases group_names) :
    r.metadata.canonical = canon := by
  simp only [new_records, List.mem_flatMap, List.mem_map] at h
  obtain ⟨g, _, a, _, rfl⟩ := h
  rfl

/-- C1 — syncing the same snapshot twice leaves the index in the exact
state (same records: ids, documents, metadata) reached after one sync, and
both calls succeed, provided the canonical name is non-empty. -/
theorem sync_entity_idempotent (embedder : String → List ℚ)
    (entity : EntitySnap) (s : IndexState)
    (h : entity.canonical_name ≠ "") :
    (sync_entity embedder entity (sync_entity embedder entity s).1).1 =
      (sync_entity embedder entity s).1 ∧
    (sync_entity embedder entity s).2 = none ∧
    (sync_entity embedder entity (sync_entity embedder entity s).1).2 = none := by
  have hprep : prepare_entity_data entity =
      Except.ok (entity.canonical_name,
        (let aliases := ((pySplit ',' entity.aliases).map String.trim).filter
            (fun a => a ≠ "")
         if pyLower entity.canonical_name ∈ aliases.map pyLower then
           aliases
         else aliases ++ [pyLower entity.canonical_name]),
        (let gs := entity.groups.filter (fun g => g ≠ "")
         if gs = [] then ["Default"] else gs)) := by
    simp [prepare_entity_data, h]
  set canon := entity.canonical_name with hc
  set aliases :=
    (let as := ((pySplit ',' entity.aliases).map String.trim).filter
        (fun a => a ≠ "")
     if pyLower canon ∈ as.map pyLower then as
     else as ++ [pyLower canon]) with ha
  set group_names :=
    (let gs := entity.groups.filter (fun g => g ≠ "")
     if gs = [] then ["Default"] else gs) with hg
  by_cases hemp : aliases = []
  · constructor
    · simp [sync_entity, hprep, hemp, List.filter_filter]
    · constructor <;> simp [sync_entity, hprep, hemp]
  · have hstate : (sync_entity embedder entity s).1 =
        s.filter (fun r => ¬ r.metadata.canonical = canon) ++
          new_records embedder entity canon aliases group_names := by
      simp [sync_entity, hprep, hemp]
    constructor
    · have hstate2 : (sync_entity embedder entity
          (s.filter (fun r => ¬ r.metadata.canonical = canon) ++
            new_records embedder entity canon aliases group_names)).1 =
          ((s.filter (fun r => ¬ r.metadata.canonical = canon) ++
            new_records embedder entity canon aliases group_names).filter
              (fun r => ¬ r.metadata.canonical = canon)) ++
            new_records embedder entity canon aliases group_names := by
        simp [sync_entity, hprep, hemp]
      have h1 : (s.filter (fun r => ¬ r.metadata.canonical = canon)).filter
          (fun r => ¬ r.metadata.canonical = canon) =
          s.filter (fun r => ¬ r.metadata.canonical = canon) := by
        simp [List.filter_filter]
      have h2 : (new_records embedder entity canon aliases group_names).filter
          (fun r => ¬ r.metadata.canonical = canon) = [] := by
        rw [List.filter_eq_nil_iff]
        intro r hr
        simp [mem_new_records_canonical hr]
      rw [hstate, hstate2, List.filter_append, h1, h2, List.append_nil]
    · constructor <;> simp [sync_entity, hprep, hemp]

/-- Witness for C1 at a concrete snapshot, embedder and starting state. -/
theorem sync_entity_idempotent_witness :
    (sync_entity (fun _ => [1, 0])
        { canonical_name := "Customer", aliases := "client, account",
          groups := ["CRM"], doc_type := some "Customer",
          related_doctypes := some ["Sales Order"] }
        (sync_entity (fun _ => [1, 0])
          { canonical_name := "Customer", aliases := "client, account",
            groups := ["CRM"], doc_type := some "Customer",
            related_doctypes := some ["Sales Order"] } []).1).1 =
      (sync_entity (fun _ => [1, 0])
        { canonical_name := "Customer", aliases := "client, account",
          groups := ["CRM"], doc_type := some "Customer",
          related_doctypes := some ["Sales Order"] } []).1 :=
  (sync_entity_idempotent (fun _ => [1, 0])
    { canonical_name := "Customer", aliases := "client, account",
      groups := ["CRM"], doc_type := some "Customer",
      related_doctypes := some ["Sales Order"] } [] (by decide)).1

/-- C10 — syncing a snapshot with an empty canonical name fails with the
validation error and returns the index state unchanged: nothing is deleted
and nothing is added. -/
theorem sync_entity_empty_canonical (embedder : String → List ℚ)
    (entity : EntitySnap) (s : IndexState)
    (h : entity.canonical_name = "") :
    sync_entity embedder entity s = (s, some SyncErr.validation) := by
  simp [sync_entity, prepare_entity_data, h]

/-- Witness for C10 at a concrete empty-named snapshot and a non-empty
index state. -/
theorem sync_entity_empty_canonical_witness :
    sync_entity (fun _ => [1])
      { canonical_name := "", aliases := "client", groups := ["CRM"],
        doc_type := none, related_doctypes := none }
      [{ id := "CRM::Customer::client", document := "client",
         embedding := [1],
         metadata := { canonical := "Customer", alias_ := "client",
                       entity_group := "CRM", doc_type := "Customer",
                       related_doctypes := "" } }] =
      ([{ id := "CRM::Customer::client", document := "client",
          embedding := [1],
          metadata := { canonical := "Customer", alias_ := "client",
                        entity_group := "CRM", doc_type := "Customer",
                        related_doctypes := "" } }],
       some SyncErr.validation) :=
  sync_entity_empty_canonical (fun _ => [1]) _ _ rfl

end ChromaIndex

namespace Pipe

/-- A Python value as far as the files under scrutiny pass them around:
strings and (rational-modelled) floats. -/
inductive PyVal where
  | str (s : String)
  | rat (q : ℚ)
  deriving DecidableEq

/-- Python truthiness of the values above: empty string and zero are
falsy. -/
def PyVal.truthy : PyVal → Bool
  | PyVal.str s => s ≠ ""
  | PyVal.rat q => q ≠ 0

/-- `EntityCandidate` from preprocessing/__init__.py: a text span with
position, type, priority and the (initially `None`) entity/canonical
fields set by `entatise`. -/
structure EntityCandidate where
  text : String
  start : Nat
  endPos : Nat
  candidate_type : String
  priority : Nat
  entity : Option PyVal
  canonical : Option PyVal
  deriving DecidableEq

/-- Constructor call `EntityCandidate(text, start, end, type, priority)`:
`entity` and `canonical` start as `None`. -/
def mkCandidate (text : String) (start endPos : Nat)
    (candidate_type : String) (priority : Nat) : EntityCandidate :=
  { text := text, start := start, endPos := endPos,
    candidate_type := candidate_type, priority := priority,
    entity := none, canonical := none }

/-- `EntityCandidate.entatise` as declared in the source: exactly one
parameter besides `self`; it stores the argument in both `entity` and
`canonical`. -/
def EntityCandidate.entatise (c : EntityCandidate) (entity : PyVal) :
    EntityCandidate :=
  { c with entity := some entity, canonical := some entity }

/-- The Python exceptions that the embedded control flow can surface. -/
inductive PyErr where
  | typeErr
  | indexErr
  deriving DecidableEq

/-- Python positional-call semantics for `entatise`: the method declares
exactly one parameter besides `self`, so a call with any other number of
positional arguments raises `TypeError` instead of executing the body. -/
def callEntatise (c : EntityCandidate) (args : List PyVal) :
    Except PyErr EntityCandidate :=
  match args with
  | [v] => Except.ok (c.entatise v)
  | _ => Except.error PyErr.typeErr

end Pipe

namespace Mapper

open Pipe

/-- One (document, metadata, distance) triple as returned per query by
`collection.query` in `process` (entity_mapper.py); `doc` is the alias
string stored as the record document. -/
structure RetrievedMatch where
  doc : String
  meta : ChromaIndex.RecordMeta
  dist : ℚ
  deriving DecidableEq

/-- The context accumulator built by `process`: two Python sets of
strings. -/
structure Context where
  dt : Finset String
  rdt : Finset String
  deriving DecidableEq

def emptyContext : Context := { dt := ∅, rdt := ∅ }

/-- The per-(token, retrieved record) confidence computation from the body
of `process`: exact case-insensitive alias match scores 1.0; otherwise a
fuzzy/vector blend (threshold `fuzz_thresh = 80`), then the 0.8 penalty
for `expanded_term` candidates, then the clamp of scores below 0.5 to 0.0.
`fuzzy_score` stands for the externally computed
`fuzz.ratio(alias, token_txt)`. -/
def matchConfidence (candidate_type al token_txt : String)
    (fuzzy_score dist : ℚ) : ℚ :=
  if pyLower al = pyLower token_txt then 1.0
  else
    let vector_sim := pyMax 0 ((2.0 - dist) / 2.0)
    let confidence :=
      if fuzzy_score ≥ 80 then (fuzzy_score / 100.0) * 0.85 + vector_sim * 0.15
      else vector_sim * 0.7
    let confidence :=
      if candidate_type = "expanded_term" then confidence * 0.8 else confidence
    if confidence < 0.5 then 0.0 else confidence

/-- One step of the inner loop of `process`: skip records whose group set
does not intersect `include_groups`, skip records beyond `max_dist`, and
keep the highest-confidence (strictly improving) match. -/
def bestStep (fuzzFn : String → String → ℚ) (include_groups : List String)
    (max_dist : ℚ) (token_type token_txt : String)
    (best : ℚ × Option (String × ChromaIndex.RecordMeta))
    (m : RetrievedMatch) : ℚ × Option (String × ChromaIndex.RecordMeta) :=
  let entity_groups := pySplit ',' m.meta.entity_group
  if ¬ include_groups.any (fun g => entity_groups.contains g) then best
  else if max_dist < m.dist then best
  else
    let confidence := matchConfidence token_type m.doc token_txt
      (fuzzFn m.doc token_txt) m.dist
    if best.1 < confidence then (confidence, some (m.meta.canonical, m.meta))
    else best

/-- The inner loop of `process` for one token: fold over the retrieved
records starting from `best_confidence = 0.0`, `best_match = None`. -/
def bestMatchFor (fuzzFn : String → String → ℚ) (include_groups : List String)
    (max_dist : ℚ) (token : EntityCandidate) (ms : List RetrievedMatch) :
    ℚ × Option (String × ChromaIndex.RecordMeta) :=
  ms.foldl (bestStep fuzzFn include_groups max_dist token.candidate_type token.text)
    (0, none)

/-- The elements yielded by `for rd in meta.get("related_doctypes", [])`:
at this point the metadata value is the comma-joined string produced by
`sync_entity`, so Python iterates its characters, yielding one-character
strings. -/
def relatedChars (s : String) : List String := s.data.map (fun c => String.mk [c])

/-- The outer loop of `process`: for each (token, retrieved list) pair of
the zip, compute the best match; on a surviving match call
`token.entatise(canonical, best_confidence)` — two positional arguments —
then accumulate `doc_type` and the related-doctype iteration into the
context.  A raised exception aborts the loop and propagates. -/
def processAux (fuzzFn : String → String → ℚ) (include_groups : List String)
    (max_dist : ℚ) :
    List EntityCandidate → List (List RetrievedMatch) → Context →
      Except PyErr (List EntityCandidate × Context)
  | ts, [], ctx => Except.ok (ts, ctx)
  | [], _ :: _, _ => Except.error PyErr.indexErr
  | t :: ts, ms :: rest, ctx =>
    let best := bestMatchFor fuzzFn include_groups max_dist t ms
    match best.2 with
    | none =>
      match processAux fuzzFn include_groups max_dist ts rest ctx with
      | Except.error e => Except.error e
      | Except.ok (ts2, c2) => Except.ok (t :: ts2, c2)
    | some (canonical, meta) =>
      match callEntatise t [PyVal.str canonical, PyVal.rat best.1] with
      | Except.error e => Except.error e
      | Except.ok t2 =>
        let ctx2 : Context :=
          { dt := insert meta.doc_type ctx.dt
            rdt := (relatedChars meta.related_doctypes).foldl
              (fun s r => insert r s) ctx.rdt }
        match processAux fuzzFn include_groups max_dist ts rest ctx2 with
        | Except.error e => Except.error e
        | Except.ok (ts2, c2) => Except.ok (t2 :: ts2, c2)

/-- `process` from entity_mapper.py, given the per-token retrieval results
of the batched `collection.query` call (`res`, one list per token, ranked
by ascending distance by the backend) and the external `fuzz.ratio`
function.  `max_dist = 1.3` at the call site in the pipeline. -/
def process (fuzzFn : String → String → ℚ) (tokens : List EntityCandidate)
    (res : List (List RetrievedMatch)) (include_groups : List String)
    (max_dist : ℚ) : Except PyErr (List EntityCandidate × Context) :=
  processAux fuzzFn include_groups max_dist tokens res emptyContext

end Mapper


/-- Two group lists intersect: some group name belongs to both. -/
def intersectsGroups (xs ys : List String) : Prop := ∃ g, g ∈ xs ∧ g ∈ ys

namespace Mapper

open Pipe

lemma bestStep_groups (fuzzFn : String → String → ℚ) (incl : List String)
    (max_dist : ℚ) (ttype ttxt : String)
    (acc : ℚ × Option (String × ChromaIndex.RecordMeta)) (x : RetrievedMatch)
    (c : String) (m : ChromaIndex.RecordMeta)
    (hacc : acc.2 = some (c, m) → intersectsGroups incl (pySplit ',' m.entity_group))
    (h : (bestStep fuzzFn incl max_dist ttype ttxt acc x).2 = some (c, m)) :
    intersectsGroups incl (pySplit ',' m.entity_group) := by
  simp only [bestStep] at h
  by_cases h1 : (incl.any fun g => ((pySplit ',' x.meta.entity_group).contains g)) = true
  · rw [if_neg (not_not_intro h1)] at h
    by_cases h2 : max_dist < x.dist
    · rw [if_pos h2] at h
      exact hacc h
    · rw [if_neg h2] at h
      by_cases h3 : acc.1 <
          matchConfidence ttype x.doc ttxt (fuzzFn x.doc ttxt) x.dist
      · rw [if_pos h3] at h
        simp only [Option.some.injEq, Prod.mk.injEq] at h
        obtain ⟨-, rfl⟩ := h
        rw [List.any_eq_true] at h1
        obtain ⟨g, hg, hcont⟩ := h1
        exact ⟨g, hg, List.mem_of_elem_eq_true hcont⟩
      · rw [if_neg h3] at h
        exact hacc h
  · rw [if_pos h1] at h
    exact hacc h

/-- The matcher half of C2: whenever the inner loop of `process` retains a
best match (the value later passed to `entatise` and into the context),
that record's metadata group set intersects the caller's
`include_groups`. -/
lemma bestMatchFor_groups (fuzzFn : String → String → ℚ) (incl : List String)
    (max_dist : ℚ) (t : EntityCandidate) (ms : List RetrievedMatch)
    (c : String) (m : ChromaIndex.RecordMeta)
    (h : (bestMatchFor fuzzFn incl max_dist t ms).2 = some (c, m)) :
    intersectsGroups incl (pySplit ',' m.entity_group) := by
  unfold bestMatchFor at h
  suffices H : ∀ (acc : ℚ × Option (String × ChromaIndex.RecordMeta)),
      (acc.2 = some (c, m) → intersectsGroups incl (pySplit ',' m.entity_group)) →
      (ms.foldl (bestStep fuzzFn incl max_dist t.candidate_type t.text) acc).2 =
        some (c, m) →
      intersectsGroups incl (pySplit ',' m.entity_group) by
    exact H (0, none) (by simp) h
  clear h
  induction ms with
  | nil => intro acc hacc hfold; exact hacc hfold
  | cons x xs ih =>
    intro acc hacc hfold
    rw [List.foldl_cons] at hfold
    exact ih _ (fun hs => bestStep_groups fuzzFn incl max_dist
      t.candidate_type t.text acc x c m hacc hs) hfold

lemma processAux_error_of_match (fuzzFn : String → String → ℚ)
    (incl : List String) (max_dist : ℚ) :
    ∀ (ts : List EntityCandidate) (res : List (List RetrievedMatch))
      (ctx : Context),
    (∃ p ∈ ts.zip res,
        ((bestMatchFor fuzzFn incl max_dist p.1 p.2).2).isSome = true) →
    processAux fuzzFn incl max_dist ts res ctx = Except.error PyErr.typeErr := by
  intro ts
  induction ts with
  | nil => intro res ctx h; simp at h
  | cons t ts ih =>
    intro res ctx h
    cases res with
    | nil => simp at h
    | cons ms rest =>
      rcases hsome : (bestMatchFor fuzzFn incl max_dist t ms).2 with - | ⟨c, m⟩
      · have h2 : ∃ p ∈ ts.zip rest,
            ((bestMatchFor fuzzFn incl max_dist p.1 p.2).2).isSome = true := by
          obtain ⟨p, hp, hps⟩ := h
          rw [List.zip_cons_cons, List.mem_cons] at hp
          rcases hp with rfl | hp
          · rw [hsome] at hps; simp at hps
          · exact ⟨p, hp, hps⟩
        simp [processAux, hsome, ih rest ctx h2]
      · simp [processAux, hsome, callEntatise]

/-- C3 — for every resolution call in which at least one candidate of the
single-pass pipeline obtains a surviving best match, `process` calls
`entatise(canonical, confidence)` with two positional arguments while
`EntityCandidate.entatise` accepts exactly one, so the call raises
`TypeError` instead of returning its entity mappings. -/
theorem process_match_raises_type_error (fuzzFn : String → String → ℚ)
    (tokens : List EntityCandidate) (res : List (List RetrievedMatch))
    (incl : List String) (max_dist : ℚ)
    (h : ∃ p ∈ tokens.zip res,
        ((bestMatchFor fuzzFn incl max_dist p.1 p.2).2).isSome = true) :
    process fuzzFn tokens res incl max_dist = Except.error PyErr.typeErr :=
  processAux_error_of_match fuzzFn incl max_dist tokens res emptyContext h

/-- Witness for C3: a single candidate with an exact group-matching
retrieval raises the TypeError. -/
theorem process_match_raises_type_error_witness :
    Mapper.process (fun _ _ => 0) [mkCandidate "orders" 5 11 "word" 3]
      [[{ doc := "orders",
          meta := { canonical := "Sales Order", alias_ := "orders",
                    entity_group := "Sales", doc_type := "Sales Order",
                    related_doctypes := "Sales Invoice,Delivery Note" },
          dist := 0 }]] ["Sales"] (13/10) = Except.error PyErr.typeErr :=
  process_match_raises_type_error _ _ _ _ _
    ⟨(mkCandidate "orders" 5 11 "word" 3,
      [{ doc := "orders",
         meta := { canonical := "Sales Order", alias_ := "orders",
                   entity_group := "Sales", doc_type := "Sales Order",
                   related_doctypes := "Sales Invoice,Delivery Note" },
         dist := 0 }]),
     by simp,
     by norm_num +decide [bestMatchFor, bestStep, matchConfidence, pyLower,
       pyMax, pySplit, pySplitAux, mkCandidate]⟩

end Mapper

namespace Mapper

open Pipe

lemma pyMax_nonneg (x : ℚ) : 0 ≤ pyMax 0 x := by
  unfold pyMax
  split
  · linarith [lt_of_lt_of_le (show (0:ℚ) < x by assumption) (le_refl x)]
  · exact le_refl 0

lemma clamp_mul_le (c : ℚ) (_hc : 0 ≤ c) :
    (if c * 0.8 < 0.5 then (0.0:ℚ) else c * 0.8) ≤
      0.8 * (if c < 0.5 then (0.0:ℚ) else c) := by
  split_ifs with h1 h2 h2 <;> nlinarith

/-- C4 (amended) — when the alias does not equal the candidate text
case-insensitively, the expanded_term candidate's confidence is at most
0.8 times the word candidate's confidence for the same retrieved
(alias, metadata, distance) triple; in the exact-equality case both types
score 1.0, bypassing the penalty. -/
theorem expanded_term_confidence_bound (al token_txt : String)
    (fuzzy_score dist : ℚ) (h : ¬ pyLower al = pyLower token_txt) :
    matchConfidence "expanded_term" al token_txt fuzzy_score dist ≤
      0.8 * matchConfidence "word" al token_txt fuzzy_score dist := by
  have e1 : (("expanded_term" : String) = "expanded_term") := rfl
  have e2 : ¬ (("word" : String) = "expanded_term") := by decide
  simp only [matchConfidence, if_neg h, if_pos e1, if_neg e2]
  refine clamp_mul_le _ ?_
  split
  · rename_i h80
    nlinarith [pyMax_nonneg ((2.0 - dist) / 2.0)]
  · nlinarith [pyMax_nonneg ((2.0 - dist) / 2.0)]

/-- Witness for the amended C4 at a concrete non-exact pair. -/
theorem expanded_term_confidence_bound_witness :
    matchConfidence "expanded_term" "client" "sold" 90 1 ≤
      0.8 * matchConfidence "word" "client" "sold" 90 1 :=
  expanded_term_confidence_bound "client" "sold" 90 1 (by decide)

/-- C4 counterexample — when the alias equals the candidate text
case-insensitively, both the expanded_term and the word candidate score
exactly 1.0 (the exact branch skips the penalty), so the claimed bound
fails: 1.0 > 0.8 × 1.0. -/
theorem expanded_term_confidence_counterexample :
    ¬ (matchConfidence "expanded_term" "sold" "sold" 100 0.5 ≤
        0.8 * matchConfidence "word" "sold" "sold" 100 0.5) := by
  norm_num [matchConfidence, pyLower]

lemma processAux_ok_ctx (fuzzFn : String → String → ℚ) (incl : List String)
    (max_dist : ℚ) :
    ∀ (ts : List EntityCandidate) (res : List (List RetrievedMatch))
      (ctx : Context) (p : List EntityCandidate × Context),
    processAux fuzzFn incl max_dist ts res ctx = Except.ok p → p.2 = ctx := by
  intro ts
  induction ts with
  | nil =>
    intro res ctx p hok
    cases res with
    | nil =>
      simp only [processAux] at hok
      cases hok
      rfl
    | cons ms rest => simp [processAux] at hok
  | cons t ts ih =>
    intro res ctx p hok
    cases res with
    | nil =>
      simp only [processAux] at hok
      cases hok
      rfl
    | cons ms rest =>
      rcases hsome : (bestMatchFor fuzzFn incl max_dist t ms).2 with - | ⟨c, m⟩
      · simp only [processAux, hsome] at hok
        rcases hrec : processAux fuzzFn incl max_dist ts rest ctx with e | q
        · rw [hrec] at hok
          exact Except.noConfusion hok
        · rcases q with ⟨ts2, c2⟩
          rw [hrec] at hok
          cases hok
          exact ih rest ctx (ts2, c2) hrec
      · simp [processAux, hsome, callEntatise] at hok

/-- C7 (amended) — whenever `process` returns at all (no candidate
obtained a surviving match: otherwise the two-argument `entatise` call
raises TypeError first, before the context-accumulation lines run), the
returned context has empty `dt` and empty `rdt`. -/
theorem process_ok_context_empty (fuzzFn : String → String → ℚ)
    (tokens : List EntityCandidate) (res : List (List RetrievedMatch))
    (incl : List String) (max_dist : ℚ) (p : List EntityCandidate × Context)
    (h : process fuzzFn tokens res incl max_dist = Except.ok p) :
    p.2.dt = ∅ ∧ p.2.rdt = ∅ := by
  have hc := processAux_ok_ctx fuzzFn incl max_dist tokens res emptyContext p h
  rw [hc]
  exact ⟨rfl, rfl⟩

/-- Witness for the amended C7 at a concrete no-match call. -/
theorem process_ok_context_empty_witness :
    (([Pipe.mkCandidate "report" 0 6 "word" 3], Mapper.emptyContext) :
        List EntityCandidate × Context).2.dt = ∅ ∧
    (([Pipe.mkCandidate "report" 0 6 "word" 3], Mapper.emptyContext) :
        List EntityCandidate × Context).2.rdt = ∅ :=
  process_ok_context_empty (fun _ _ => 0)
    [Pipe.mkCandidate "report" 0 6 "word" 3] [[]] ["HR"] 2
    ([Pipe.mkCandidate "report" 0 6 "word" 3], Mapper.emptyContext) rfl

/-- C7 counterexample — a call whose single candidate matches an entity
carrying related record types never returns a context: the entatise
TypeError aborts it, so no returned context contains the matched record
type or its related record types. -/
theorem process_context_counterexample :
    (Mapper.process (fun _ _ => 0) [Pipe.mkCandidate "client" 0 6 "word" 3]
        [[{ doc := "client",
            meta := { canonical := "Customer", alias_ := "client",
                      entity_group := "CRM", doc_type := "Customer",
                      related_doctypes := "Sales Order,Sales Invoice" },
            dist := 0 }]] ["CRM"] 2 = Except.error PyErr.typeErr) ∧
    ¬ ∃ p, Mapper.process (fun _ _ => 0)
        [Pipe.mkCandidate "client" 0 6 "word" 3]
        [[{ doc := "client",
            meta := { canonical := "Customer", alias_ := "client",
                      entity_group := "CRM", doc_type := "Customer",
                      related_doctypes := "Sales Order,Sales Invoice" },
            dist := 0 }]] ["CRM"] 2 = Except.ok p ∧
        "Customer" ∈ p.2.dt ∧ "Sales Order" ∈ p.2.rdt := by
  have hres : Mapper.process (fun _ _ => 0)
      [Pipe.mkCandidate "client" 0 6 "word" 3]
      [[{ doc := "client",
          meta := { canonical := "Customer", alias_ := "client",
                    entity_group := "CRM", doc_type := "Customer",
                    related_doctypes := "Sales Order,Sales Invoice" },
          dist := 0 }]] ["CRM"] 2 = Except.error PyErr.typeErr := by
    norm_num +decide [process, processAux, bestMatchFor, bestStep,
      matchConfidence, pyLower, pyMax, pySplit, pySplitAux, mkCandidate,
      callEntatise]
  refine ⟨hres, ?_⟩
  rintro ⟨p, hp, -⟩
  rw [hres] at hp
  exact Except.noConfusion hp

end Mapper

namespace LtStore

/-- Metadata of one lightweight-store record as built by
`_load_from_database`: canonical form (falling back to the entity name at
load time), record type, comma-joined group string, and the
JSON-parsed related record types. -/
structure LtMeta where
  canonical : String
  doc_type : String
  entity_group : String
  related_doctypes : List String
  deriving DecidableEq, Inhabited

/-- The in-memory store: the parallel `_entities`, `_embeddings` and
`_metadata` lists. -/
structure Store where
  entities : List String
  embeddings : List (List ℚ)
  metadata : List LtMeta
  deriving DecidableEq

/-- One match dict produced by `search`. -/
structure LtMatch where
  text : String
  canonical : String
  doc_type : String
  entity_groups : List String
  related_doctypes : List String
  distance : ℚ
  deriving DecidableEq

/-- One per-query result dict of `search`; `id` is absent (`none`) only in
the two early returns that yield bare match-less dicts. -/
structure SearchResult where
  id : Option Nat
  matches_ : List LtMatch
  deriving DecidableEq

/-- The `_build_indices` text index, as a lookup: lower-cased entity text
to entity index.  The dict comprehension lets a later entity overwrite an
earlier one with the same lower-cased text, hence the last matching
index. -/
def textIndexLookup (entities : List String) (q : String) : Option Nat :=
  ((List.range entities.length).filter
    (fun i => pyLower (entities.getD i "") = q)).getLast?

/-- The group-filter pool `filter_indices` of `search` after
`sorted(set(...))`: the ascending list of record indices whose comma-split
group string contains some non-empty group of `include_groups` (the
`_build_indices` group index skips empty group names, and `sorted` over
the union of its buckets is exactly this order-preserving filter). -/
def filterIndices (metadata : List LtMeta) (include_groups : List String) :
    List Nat :=
  (List.range metadata.length).filter
    (fun i => include_groups.any
      (fun g => (g != "") &&
        ((pySplit ',' ((metadata.getD i default).entity_group)).contains g)))

/-- The exact-match pass of `search` over the enumerated queries: a
text-index hit whose group set intersects `include_groups` becomes a
distance-0.0 result; every other query is deferred (with its original
index) to vector search.  The returned `entity_groups` list materializes
the Python set of split groups; its order is unspecified in the source and
modelled by `dedup`. -/
def exactHit (st : Store) (incl : List String) (idx : Nat) : Bool :=
  (pySplit ',' ((st.metadata.getD idx default).entity_group)).any
    (fun g => incl.contains g)

/-- The distance-0.0 match dict built on an exact hit.  The
`entity_groups` list materializes the Python set of split groups; its
order is unspecified in the source and modelled by `dedup`. -/
def exactMatch (st : Store) (idx : Nat) : LtMatch :=
  { text := st.entities.getD idx ""
    canonical := (st.metadata.getD idx default).canonical
    doc_type := (st.metadata.getD idx default).doc_type
    entity_groups := (pySplit ',' ((st.metadata.getD idx default).entity_group)).dedup
    related_doctypes := (st.metadata.getD idx default).related_doctypes
    distance := (0 : ℚ) }

def exactPass (st : Store) (incl : List String) :
    Nat → List String → (List SearchResult × List (Nat × String))
  | _, [] => ([], [])
  | i, q :: qs =>
    let rest := exactPass st incl (i + 1) qs
    match textIndexLookup st.entities (pyLower q) with
    | some idx =>
      if exactHit st incl idx then
        ({ id := some i, matches_ := [exactMatch st idx] } :: rest.1, rest.2)
      else (rest.1, (i, q) :: rest.2)
    | none => (rest.1, (i, q) :: rest.2)

/-- Dot product (`np.dot` row-wise). -/
def dotQ (xs ys : List ℚ) : ℚ := ((xs.zip ys).map (fun p => p.1 * p.2)).sum

/-- Stable insertion into an index list ordered by ascending distance. -/
def insertIdx (xs : List ℚ) (i : Nat) : List Nat → List Nat
  | [] => [i]
  | j :: js =>
    if xs.getD i 0 ≤ xs.getD j 0 then i :: j :: js else j :: insertIdx xs i js

/-- `np.argsort` over a distance list: the indices `0..n-1` sorted by
ascending value.  np.argsort leaves tie order unspecified; ties are
modelled stably by index, and no theorem below depends on tie order. -/
def argsortQ (xs : List ℚ) : List Nat :=
  (List.range xs.length).foldr (insertIdx xs) []

/-- The brute-force scorer of `search` for one query embedding over the
group-filtered pool: similarities by dot product, distances `1 - sim`,
`argsort` truncated to `top_k`, then the `max_distance` cut.  This is the
pool-below-1000 branch and the identical numpy fallback of the FAISS
branch; the FAISS branch itself scores the same filtered pool with the
same post-filter. -/
def vectorMatches (filtered_entities : List String)
    (filtered_metadata : List LtMeta) (filtered_embeddings : List (List ℚ))
    (qemb : List ℚ) (top_k : Nat) (max_distance : ℚ) : List LtMatch :=
  let distances := filtered_embeddings.map (fun e => 1 - dotQ e qemb)
  ((argsortQ distances).take top_k).filterMap (fun idx =>
    if distances.getD idx 0 ≤ max_distance then
      some { text := filtered_entities.getD idx "",
             canonical := (filtered_metadata.getD idx default).canonical,
             doc_type := (filtered_metadata.getD idx default).doc_type,
             entity_groups :=
               pySplit ',' ((filtered_metadata.getD idx default).entity_group),
             related_doctypes :=
               (filtered_metadata.getD idx default).related_doctypes,
             distance := distances.getD idx 0 }
    else none)

/-- Stable insertion for the final `results.sort(key=lambda x: x["id"])`
(ids are pairwise distinct where the sort is reached, so stability is
moot). -/
def insertById (r : SearchResult) : List SearchResult → List SearchResult
  | [] => [r]
  | x :: xs =>
    if r.id.getD 0 ≤ x.id.getD 0 then r :: x :: xs else x :: insertById r xs

def sortById (rs : List SearchResult) : List SearchResult :=
  rs.foldr insertById []

/-- `LightweightEntityStore.search`, with the brute-force vector branch:
the two empty-input early returns, the empty-pool early return, the
exact-match pass, vector scoring of the deferred queries, and the final
sort by original query index. -/
def search (st : Store) (embedder : String → List ℚ)
    (queries include_groups : List String) (top_k : Nat)
    (max_distance : ℚ) : List SearchResult :=
  if queries = [] ∨ st.entities = [] then
    queries.map (fun _ => { id := none, matches_ := [] })
  else
    let fi := filterIndices st.metadata include_groups
    if fi = [] then queries.map (fun _ => { id := none, matches_ := [] })
    else
      let filtered_entities := fi.map (fun i => st.entities.getD i "")
      let filtered_metadata := fi.map (fun i => st.metadata.getD i default)
      let filtered_embeddings := fi.map (fun i => st.embeddings.getD i [])
      let ep := exactPass st include_groups 0 queries
      if ep.2 = [] then ep.1
      else
        sortById (ep.1 ++ ep.2.map (fun p =>
          { id := some p.1
            matches_ := vectorMatches filtered_entities filtered_metadata
              filtered_embeddings (embedder p.2) top_k max_distance }))

end LtStore


namespace LtStore

lemma textIndexLookup_lt {entities : List String} {q : String} {idx : Nat}
    (h : textIndexLookup entities q = some idx) :
    idx < entities.length ∧ pyLower (entities.getD idx "") = q := by
  unfold textIndexLookup at h
  have hmem : idx ∈ (List.range entities.length).filter
      (fun i => pyLower (entities.getD i "") = q) :=
    List.mem_of_mem_getLast? (h ▸ rfl)
  rw [List.mem_filter, List.mem_range] at hmem
  exact ⟨hmem.1, by simpa using hmem.2⟩

lemma mem_filterIndices {metadata : List LtMeta} {incl : List String} {i : Nat} :
    i ∈ filterIndices metadata incl ↔
      i < metadata.length ∧ ∃ g ∈ incl, g ≠ "" ∧
        g ∈ pySplit ',' ((metadata.getD i default).entity_group) := by
  unfold filterIndices
  rw [List.mem_filter, List.mem_range]
  constructor
  · rintro ⟨h1, h2⟩
    refine ⟨h1, ?_⟩
    rw [List.any_eq_true] at h2
    obtain ⟨g, hg, hb⟩ := h2
    rw [Bool.and_eq_true] at hb
    refine ⟨g, hg, ?_, List.mem_of_elem_eq_true hb.2⟩
    simpa using hb.1
  · rintro ⟨h1, g, hg, hg0, hgm⟩
    refine ⟨h1, ?_⟩
    rw [List.any_eq_true]
    refine ⟨g, hg, ?_⟩
    rw [Bool.and_eq_true]
    exact ⟨by simpa using hg0, List.elem_eq_true_of_mem hgm⟩

lemma mem_insertIdx {xs : List ℚ} {i j : Nat} :
    ∀ {l : List Nat}, j ∈ insertIdx xs i l → j = i ∨ j ∈ l := by
  intro l
  induction l with
  | nil => intro h; simp [insertIdx] at h; exact Or.inl h
  | cons k ks ih =>
    intro h
    unfold insertIdx at h
    split at h
    · rcases List.mem_cons.mp h with rfl | h2
      · exact Or.inl rfl
      · exact Or.inr h2
    · rcases List.mem_cons.mp h with rfl | h2
      · exact Or.inr (List.mem_cons_self _ _)
      · rcases ih h2 with rfl | h3
        · exact Or.inl rfl
        · exact Or.inr (List.mem_cons_of_mem _ h3)

lemma mem_argsortQ {xs : List ℚ} {i : Nat} (h : i ∈ argsortQ xs) :
    i < xs.length := by
  unfold argsortQ at h
  suffices H : ∀ (l : List Nat), i ∈ l.foldr (insertIdx xs) [] → i ∈ l by
    exact List.mem_range.mp (H _ h)
  intro l
  induction l with
  | nil => intro h2; simp at h2
  | cons k ks ih =>
    intro h2
    rw [List.foldr_cons] at h2
    rcases mem_insertIdx h2 with rfl | h3
    · exact List.mem_cons_self _ _
    · exact List.mem_cons_of_mem _ (ih h3)

lemma vectorMatches_groups {fe : List String} {fm : List LtMeta}
    {femb : List (List ℚ)} {qemb : List ℚ} {top_k : Nat} {md : ℚ}
    {m : LtMatch} (h : m ∈ vectorMatches fe fm femb qemb top_k md) :
    ∃ idx, idx < femb.length ∧
      m.entity_groups = pySplit ',' ((fm.getD idx default).entity_group) := by
  unfold vectorMatches at h
  rw [List.mem_filterMap] at h
  obtain ⟨idx, hidx, hsome⟩ := h
  have hlt : idx < femb.length := by
    have h1 := mem_argsortQ (List.mem_of_mem_take hidx)
    simpa using h1
  refine ⟨idx, hlt, ?_⟩
  split at hsome
  · cases hsome
    rfl
  · exact Option.noConfusion hsome

lemma exactHit_intersects {st : Store} {incl : List String} {idx : Nat}
    (h : exactHit st incl idx = true) :
    intersectsGroups (exactMatch st idx).entity_groups incl := by
  unfold exactHit at h
  rw [List.any_eq_true] at h
  obtain ⟨g, hg, hc⟩ := h
  exact ⟨g, List.mem_dedup.mpr hg, List.mem_of_elem_eq_true hc⟩

lemma exactPass_groups {st : Store} {incl : List String} :
    ∀ (qs : List String) (i : Nat) (r : SearchResult) (m : LtMatch),
    r ∈ (exactPass st incl i qs).1 → m ∈ r.matches_ →
    intersectsGroups m.entity_groups incl := by
  intro qs
  induction qs with
  | nil => intro i r m hr _; simp [exactPass] at hr
  | cons q qs ih =>
    intro i r m hr hm
    rcases htx : textIndexLookup st.entities (pyLower q) with - | idx
    · simp only [exactPass, htx] at hr
      exact ih (i + 1) r m hr hm
    · by_cases hhit : exactHit st incl idx = true
      · simp only [exactPass, htx, hhit, if_true] at hr
        rcases List.mem_cons.mp hr with rfl | hr2
        · simp only at hm
          rcases List.mem_cons.mp hm with rfl | hm2
          · exact exactHit_intersects hhit
          · simp at hm2
        · exact ih (i + 1) r m hr2 hm
      · simp only [exactPass, htx, hhit, if_false, Bool.false_eq_true] at hr
        exact ih (i + 1) r m hr hm

lemma mem_insertById {r x : SearchResult} :
    ∀ {l : List SearchResult}, x ∈ insertById r l → x = r ∨ x ∈ l := by
  intro l
  induction l with
  | nil => intro h; simp [insertById] at h; exact Or.inl h
  | cons k ks ih =>
    intro h
    unfold insertById at h
    split at h
    · rcases List.mem_cons.mp h with rfl | h2
      · exact Or.inl rfl
      · exact Or.inr h2
    · rcases List.mem_cons.mp h with rfl | h2
      · exact Or.inr (List.mem_cons_self _ _)
      · rcases ih h2 with rfl | h3
        · exact Or.inl rfl
        · exact Or.inr (List.mem_cons_of_mem _ h3)

lemma mem_sortById {r : SearchResult} {rs : List SearchResult}
    (h : r ∈ sortById rs) : r ∈ rs := by
  unfold sortById at h
  suffices H : ∀ (l : List SearchResult), r ∈ l.foldr insertById [] → r ∈ l by
    exact H _ h
  intro l
  induction l with
  | nil => intro h2; simp at h2
  | cons k ks ih =>
    intro h2
    rw [List.foldr_cons] at h2
    rcases mem_insertById h2 with rfl | h3
    · exact List.mem_cons_self _ _
    · exact List.mem_cons_of_mem _ (ih h3)

/-- Every match returned by `search` (exact-match fast path or vector
path) carries a group list that intersects `include_groups`. -/
lemma search_groups {st : Store} {embedder : String → List ℚ}
    {queries incl : List String} {top_k : Nat} {max_distance : ℚ}
    {r : SearchResult} {m : LtMatch}
    (hr : r ∈ search st embedder queries incl top_k max_distance)
    (hm : m ∈ r.matches_) : intersectsGroups m.entity_groups incl := by
  unfold search at hr
  split at hr
  · obtain ⟨q, -, rfl⟩ := List.mem_map.mp hr
    simp at hm
  · dsimp only at hr
    by_cases hfi : filterIndices st.metadata incl = []
    · rw [if_pos hfi] at hr
      obtain ⟨q, -, rfl⟩ := List.mem_map.mp hr
      simp at hm
    · rw [if_neg hfi] at hr
      by_cases hep : (exactPass st incl 0 queries).2 = []
      · rw [if_pos hep] at hr
        exact exactPass_groups queries 0 r m hr hm
      · rw [if_neg hep] at hr
        have hr2 := mem_sortById hr
        rcases List.mem_append.mp hr2 with hex | hvec
        · exact exactPass_groups queries 0 r m hex hm
        · obtain ⟨⟨i, q⟩, -, rfl⟩ := List.mem_map.mp hvec
          simp only at hm
          obtain ⟨idx, hlt, hgr⟩ := vectorMatches_groups hm
          rw [List.length_map] at hlt
          have hfi : (filterIndices st.metadata incl).getD idx 0 ∈
              filterIndices st.metadata incl := by
            rw [List.getD_eq_getElem _ _ hlt]
            exact List.getElem_mem hlt
          have hmeta : ((filterIndices st.metadata incl).map
              (fun j => st.metadata.getD j default)).getD idx default =
              st.metadata.getD
                ((filterIndices st.metadata incl).getD idx 0) default := by
            rw [List.getD_eq_getElem _ _ (by simpa using hlt),
              List.getElem_map, List.getD_eq_getElem _ _ hlt]
          rw [hmeta] at hgr
          obtain ⟨-, g, hg, -, hgm⟩ := mem_filterIndices.mp hfi
          exact ⟨g, by rw [hgr]; exact hgm, hg⟩

end LtStore

/-- C2 — group isolation: a search never returns a match whose record
group set fails to intersect `include_groups`, on the exact-match fast
path and on the vector path alike; and the Candidate Matcher never
retains (hence never attaches) a best match whose metadata group set
fails to intersect the caller's `include_groups`. -/
theorem group_isolation :
    (∀ (st : LtStore.Store) (embedder : String → List ℚ)
        (queries incl : List String) (top_k : Nat) (max_distance : ℚ)
        (r : LtStore.SearchResult) (m : LtStore.LtMatch),
      r ∈ LtStore.search st embedder queries incl top_k max_distance →
      m ∈ r.matches_ → intersectsGroups m.entity_groups incl) ∧
    (∀ (fuzzFn : String → String → ℚ) (incl : List String) (max_dist : ℚ)
        (t : Pipe.EntityCandidate) (ms : List Mapper.RetrievedMatch)
        (c : String) (meta : ChromaIndex.RecordMeta),
      (Mapper.bestMatchFor fuzzFn incl max_dist t ms).2 = some (c, meta) →
      intersectsGroups incl (pySplit ',' meta.entity_group)) :=
  ⟨fun _ _ _ _ _ _ _ _ hr hm => LtStore.search_groups hr hm,
   fun fz incl md t ms c meta h =>
     Mapper.bestMatchFor_groups fz incl md t ms c meta h⟩

/-- Witness for C2: both halves applied at concrete inputs — an exact-hit
search result and a retained matcher best-match. -/
theorem group_isolation_witness :
    intersectsGroups
      (LtStore.exactMatch
        ⟨["client"], [[1]], [⟨"Customer", "Customer", "CRM", []⟩]⟩
        0).entity_groups ["CRM"] ∧
    intersectsGroups ["CRM"] (pySplit ',' "CRM") :=
  ⟨group_isolation.1
      ⟨["client"], [[1]], [⟨"Customer", "Customer", "CRM", []⟩]⟩
      (fun _ => [1]) ["client"] ["CRM"] 5 (1/4)
      { id := some 0,
        matches_ := [LtStore.exactMatch
          ⟨["client"], [[1]], [⟨"Customer", "Customer", "CRM", []⟩]⟩ 0] }
      (LtStore.exactMatch
        ⟨["client"], [[1]], [⟨"Customer", "Customer", "CRM", []⟩]⟩ 0)
      (by decide)
      (by simp),
   group_isolation.2 (fun _ _ => 0) ["CRM"] 2
      (Pipe.mkCandidate "client" 0 6 "word" 3)
      [{ doc := "client",
         meta := { canonical := "Customer", alias_ := "client",
                   entity_group := "CRM", doc_type := "Customer",
                   related_doctypes := "" },
         dist := 0 }] "Customer"
      { canonical := "Customer", alias_ := "client", entity_group := "CRM",
        doc_type := "Customer", related_doctypes := "" }
      (by norm_num +decide [Mapper.bestMatchFor, Mapper.bestStep,
        Mapper.matchConfidence, pyLower, pyMax, pySplit, pySplitAux,
        Pipe.mkCandidate])⟩

namespace LtStore

/-- C5 (amended) — when the Text Index maps the lower-cased query string
to record `idx` (the last record whose lower-cased stored text equals it)
and that record's comma-split group set shares a non-empty group name
with `include_groups`, a single-query search returns exactly the
distance-0.0 exact match for record `idx`, resolved through the Text
Index before vector search and independent of the embedder (the embedding
call for that query is bypassed). -/
theorem search_exact_fast_path (st : Store) (embedder : String → List ℚ)
    (q : String) (incl : List String) (top_k : Nat) (max_distance : ℚ)
    (idx : Nat) (g : String)
    (hidx : textIndexLookup st.entities (pyLower q) = some idx)
    (hmlen : idx < st.metadata.length) (hg : g ∈ incl) (hg0 : g ≠ "")
    (hgm : g ∈ pySplit ',' ((st.metadata.getD idx default).entity_group)) :
    search st embedder [q] incl top_k max_distance =
      [{ id := some 0, matches_ := [exactMatch st idx] }] := by
  have hne : st.entities ≠ [] := by
    intro h
    have h1 := (textIndexLookup_lt hidx).1
    rw [h] at h1
    simp at h1
  have hfi : idx ∈ filterIndices st.metadata incl :=
    mem_filterIndices.mpr ⟨hmlen, g, hg, hg0, hgm⟩
  have hhit : exactHit st incl idx = true := by
    unfold exactHit
    rw [List.any_eq_true]
    exact ⟨g, hgm, List.elem_eq_true_of_mem hg⟩
  unfold search
  rw [if_neg (by simp [hne])]
  dsimp only
  rw [if_neg (List.ne_nil_of_mem hfi)]
  simp [exactPass, hidx, hhit]

/-- Witness for the amended C5 at a concrete one-record store. -/
theorem search_exact_fast_path_witness :
    search ⟨["client"], [[1]], [⟨"Customer", "Customer", "CRM", []⟩]⟩
      (fun _ => [9]) ["client"] ["CRM"] 5 (1/4) =
      [{ id := some 0,
         matches_ := [exactMatch
           ⟨["client"], [[1]], [⟨"Customer", "Customer", "CRM", []⟩]⟩ 0] }] :=
  search_exact_fast_path
    ⟨["client"], [[1]], [⟨"Customer", "Customer", "CRM", []⟩]⟩
    (fun _ => [9]) "client" ["CRM"] 5 (1/4) 0 "CRM"
    (by norm_num +decide [textIndexLookup, pyLower])
    (by decide) (by simp) (by decide) (by decide)

/-- C5 counterexample — the Text Index is keyed by the stored entity text
(the database `name`), not by the canonical name: a store holding the
entity with text "Cust" and canonical name "Customer" (group G, group
filter {G}) returns no distance-0.0 match for the exact lower-cased
canonical name "customer"; the query falls through to vector search and
comes back empty. -/
theorem search_exact_fast_path_counterexample :
    (search ⟨["Cust"], [[1]], [⟨"Customer", "Customer", "G", []⟩]⟩
        (fun _ => [0]) ["customer"] ["G"] 5 (1/4) =
      [{ id := some 0, matches_ := [] }]) ∧
    ¬ ∃ r ∈ search ⟨["Cust"], [[1]], [⟨"Customer", "Customer", "G", []⟩]⟩
        (fun _ => [0]) ["customer"] ["G"] 5 (1/4),
      ∃ m ∈ r.matches_, m.canonical = "Customer" ∧ m.distance = 0 := by
  have hres : search ⟨["Cust"], [[1]], [⟨"Customer", "Customer", "G", []⟩]⟩
      (fun _ => [0]) ["customer"] ["G"] 5 (1/4) =
      [{ id := some 0, matches_ := [] }] := by
    have htx : textIndexLookup ["Cust"] (pyLower "customer") = none := by decide
    unfold search
    rw [if_neg (by decide)]
    dsimp only
    rw [if_neg (show ¬ filterIndices
      [⟨"Customer", "Customer", "G", []⟩] ["G"] = [] by decide)]
    norm_num +decide [exactPass, htx, vectorMatches, argsortQ, insertIdx,
      dotQ, sortById, insertById, filterIndices, pySplit, pySplitAux,
      List.range_succ, List.range_zero]
  refine ⟨hres, ?_⟩
  rintro ⟨r, hr, m, hm, -⟩
  rw [hres] at hr
  rcases List.mem_singleton.mp hr with rfl
  simp at hm

end LtStore

namespace Pipe

/-- Modelled from the spec: the STOP_WORDS set (stop_words.py is not under
src/).  §4.2 marks the interrogatives who/what/where/when/why/how/which as
stop words; the §8 scenario for the query containing "most sold product in
orders" retains only sold/product/orders, so "most" and "in" are filtered;
the remaining entries are conventional English stop words consistent with
those examples. -/
def STOP_WORDS : List String :=
  ["who", "what", "where", "when", "why", "how", "which",
   "the", "a", "an", "in", "on", "of", "for", "to", "is", "are", "and",
   "most"]

/-- The `keep_question_words` literal of
`_replace_stopwords_with_positions`. -/
def keep_question_words : List String :=
  ["who", "what", "where", "when", "why", "how", "which"]

/-- A token of the normalized query with its tracked character offsets. -/
structure WordPos where
  word : String
  start : Nat
  endPos : Nat
  deriving DecidableEq, Inhabited

/-- A chunk dict of `_replace_stopwords_with_positions`. -/
structure Chunk where
  text : String
  start : Nat
  endPos : Nat
  words : List WordPos
  deriving DecidableEq

/-- Python slice `s[a:b]` over the character list. -/
def strSlice (s : String) (a b : Nat) : String :=
  String.mk ((s.data.drop a).take (b - a))

/-- `str.find(sub, i)` scanning for the first occurrence at index ≥ `i`. -/
def listFind (sub : List Char) : List Char → Nat → Option Nat
  | [], i => if sub = [] then some i else none
  | c :: t, i =>
    if sub.isPrefixOf (c :: t) then some i else listFind sub t (i + 1)

def strFind (s w : String) (start : Nat) : Option Nat :=
  listFind w.data (s.data.drop start) start

/-- The word-splitting and position-tracking prologue of
`_replace_stopwords_with_positions`: `words = lq.split()` and, per word,
`word_start = lq.find(word, current_pos)`, `word_end = word_start + len`,
advancing `current_pos` to `word_end`.  `split()` drops empty fields; a
failed find (unreachable for words obtained from `lq` itself) is modelled
as position 0. -/
def tokenizeAux (lq : String) : Nat → List String → List WordPos
  | _, [] => []
  | current_pos, w :: rest =>
    let word_start := (strFind lq w current_pos).getD 0
    let word_end := word_start + w.length
    { word := w, start := word_start, endPos := word_end } ::
      tokenizeAux lq word_end rest

def tokenize (lq : String) : List WordPos :=
  tokenizeAux lq 0 ((pySplit ' ' lq).filter (fun w => w ≠ ""))

/-- Closing `current_chunk`: text is the `lq` slice from the first word's
start to the last word's end (call sites only close non-empty chunks). -/
def closeChunk (lq : String) (cur : List WordPos) : Chunk :=
  let chunk_start := (cur.head?.map WordPos.start).getD 0
  let chunk_end := ((cur.getLast?).map WordPos.endPos).getD 0
  { text := strSlice lq chunk_start chunk_end
    start := chunk_start
    endPos := chunk_end
    words := cur }

/-- The chunking loop of `_replace_stopwords_with_positions`: keep a word
when it is an interrogative with nothing kept yet (no chunk closed and the
current chunk empty) or not a stop word; a filtered word closes the
current chunk if it is non-empty; the trailing chunk is flushed at the
end. -/
def replaceAux (stopW : List String) (lq : String) :
    List Chunk → List WordPos → List WordPos → List Chunk
  | chunks, current_chunk, [] =>
    if current_chunk ≠ [] then chunks ++ [closeChunk lq current_chunk]
    else chunks
  | chunks, current_chunk, w :: ws =>
    if (w.word ∈ keep_question_words ∧ chunks = [] ∧ current_chunk = []) ∨
        w.word ∉ stopW then
      replaceAux stopW lq chunks (current_chunk ++ [w]) ws
    else if current_chunk ≠ [] then
      replaceAux stopW lq (chunks ++ [closeChunk lq current_chunk]) [] ws
    else replaceAux stopW lq chunks [] ws

/-- `_replace_stopwords_with_positions` on an explicit positioned word
list (the loop body, separated from tokenization for the theorems
below). -/
def replace_stopwords_words (stopW : List String) (lq : String)
    (ws : List WordPos) : List Chunk :=
  replaceAux stopW lq [] [] ws

def replace_stopwords (stopW : List String) (lq : String) : List Chunk :=
  replace_stopwords_words stopW lq (tokenize lq)

/-- `_is_meaningful_word`: at least 3 characters. -/
def is_meaningful_word (w : String) : Bool := decide (3 ≤ w.length)

/-- Priority-1 candidate for a (multi-word) chunk. -/
def chunkCandidate (c : Chunk) : EntityCandidate :=
  mkCandidate c.text c.start c.endPos "chunk" 1

/-- Priority-2 sub-phrase candidates: every adjacent 2-word span of a
chunk with at least two words. -/
def subPhrases (lq : String) (c : Chunk) : List EntityCandidate :=
  if 2 ≤ c.words.length then
    (c.words.zip c.words.tail).map (fun p =>
      mkCandidate (strSlice lq p.1.start p.2.endPos) p.1.start p.2.endPos
        "sub_phrase" 2)
  else []

/-- Priority-3 candidates: every meaningful chunk word. -/
def wordCandidates (chunks : List Chunk) : List EntityCandidate :=
  chunks.flatMap (fun c =>
    (c.words.filter (fun w => is_meaningful_word w.word)).map
      (fun w => mkCandidate w.word w.start w.endPos "word" 3))

/-- The position search for an expanded term's originating word: the first
chunk word with that text. -/
def findWordPos (chunks : List Chunk) (w : String) : Option (Nat × Nat) :=
  ((chunks.flatMap Chunk.words).find? (fun wp => wp.word = w)).map
    (fun wp => (wp.start, wp.endPos))

/-- Priority-4 candidates: each expansion shares the originating word's
span; expansions whose originating word is not found produce nothing. -/
def expandedCandidates (chunks : List Chunk)
    (expanded_terms : List (String × List String)) : List EntityCandidate :=
  expanded_terms.flatMap (fun p =>
    match findWordPos chunks p.1 with
    | some pos => p.2.map (fun t => mkCandidate t pos.1 pos.2 "expanded_term" 4)
    | none => [])

/-- The phrase phase of the overlap filter: walk the candidate list; a
chunk or sub_phrase candidate is kept iff its span overlaps no previously
kept phrase range, and its range is then reserved; other candidates are
skipped in this phase. -/
def phrasePass : List EntityCandidate → List (Nat × Nat) →
    List EntityCandidate
  | [], _ => []
  | c :: cs, ranges =>
    if c.candidate_type == "chunk" || c.candidate_type == "sub_phrase" then
      if ranges.any (fun r => decide (¬ (c.endPos ≤ r.1 ∨ r.2 ≤ c.start))) then
        phrasePass cs ranges
      else c :: phrasePass cs (ranges ++ [(c.start, c.endPos)])
    else phrasePass cs ranges

/-- `_generate_candidates_with_expansions` on an explicit chunk list:
priority-1 candidates for chunks with more than one word, priority-2
sub-phrases, priority-3 meaningful words, priority-4 expansions, then the
overlap filter (phrase phase followed by the unconditional word/expanded
appendix). -/
def generate_candidates_chunks (expanded_terms : List (String × List String))
    (lq : String) (chunks : List Chunk) : List EntityCandidate :=
  let candidates :=
    (chunks.filter (fun c => 1 < c.words.length)).map chunkCandidate ++
      chunks.flatMap (subPhrases lq) ++
      wordCandidates chunks ++
      expandedCandidates chunks expanded_terms
  phrasePass candidates [] ++
    candidates.filter (fun c =>
      c.candidate_type == "word" || c.candidate_type == "expanded_term")

def generate_candidates (stopW : List String)
    (expanded_terms : List (String × List String)) (lq : String) :
    List EntityCandidate :=
  generate_candidates_chunks expanded_terms lq (replace_stopwords stopW lq)

/-- One entry of `self.entity_mappings` as built by `_entity_mapping`:
text, span, mapped entity, candidate type and priority — the entries carry
no confidence field. -/
structure MappingEntry where
  text : String
  start : Nat
  endPos : Nat
  entity : PyVal
  candidate_type : String
  priority : Nat
  deriving DecidableEq

/-- `PipeLine._entity_mapping` plus the mapping-entry construction: early
return on an empty candidate list, otherwise call the entity mapper and
keep, per (candidate, mapped) pair, an entry whenever the mapped
candidate's `canonical` is truthy, in candidate order; no sort is
applied.  A mapper exception propagates. -/
def entity_mapping (fuzzFn : String → String → ℚ)
    (candidates : List EntityCandidate)
    (res : List (List Mapper.RetrievedMatch)) (incl : List String)
    (max_dist : ℚ) : Except PyErr (List MappingEntry × Mapper.Context) :=
  if candidates = [] then Except.ok ([], Mapper.emptyContext)
  else
    match Mapper.process fuzzFn candidates res incl max_dist with
    | Except.error e => Except.error e
    | Except.ok (mapped, ctx) =>
      Except.ok ((candidates.zip mapped).filterMap (fun p =>
        match p.2.canonical with
        | some v =>
          if v.truthy then
            some { text := p.1.text, start := p.1.start, endPos := p.1.endPos,
                   entity := v, candidate_type := p.1.candidate_type,
                   priority := p.1.priority }
          else none
        | none => none), ctx)

end Pipe

namespace Pipe

/-- The keep/filter decision sequence of the chunking loop as a function
of whether anything has been kept so far: the loop state
`(chunks, current_chunk)` is empty-empty exactly until the first kept
word, so `should_keep` depends on the state only through that flag. -/
def keepTrace (stopW : List String) : Bool → List WordPos → List Bool
  | _, [] => []
  | anyKept, w :: ws =>
    decide ((w.word ∈ keep_question_words ∧ anyKept = false) ∨
        w.word ∉ stopW) ::
      keepTrace stopW
        (anyKept || decide ((w.word ∈ keep_question_words ∧ anyKept = false) ∨
          w.word ∉ stopW)) ws

/-- Maximal runs of flag-true words: every flag-false word ends the
current run.  Spec-side comparator for the amended C8. -/
def runsAux : List WordPos → List (WordPos × Bool) → List (List WordPos)
  | cur, [] => if cur ≠ [] then [cur] else []
  | cur, (w, true) :: rest => runsAux (cur ++ [w]) rest
  | cur, (_, false) :: rest =>
    if cur ≠ [] then cur :: runsAux [] rest else runsAux [] rest

def keptRuns (stopW : List String) (ws : List WordPos) :
    List (List WordPos) :=
  runsAux [] (ws.zip (keepTrace stopW false ws))

lemma replaceAux_words (stopW : List String) (lq : String) :
    ∀ (ws : List WordPos) (chunks : List Chunk) (cur : List WordPos)
      (e : Bool), ((e = false) ↔ (chunks = [] ∧ cur = [])) →
    (replaceAux stopW lq chunks cur ws).map Chunk.words =
      chunks.map Chunk.words ++ runsAux cur (ws.zip (keepTrace stopW e ws)) := by
  intro ws
  induction ws with
  | nil =>
    intro chunks cur e he
    by_cases hcur : cur = []
    · simp [replaceAux, runsAux, keepTrace, hcur]
    · simp [replaceAux, runsAux, keepTrace, hcur, closeChunk]
  | cons w ws ih =>
    intro chunks cur e he
    have hiff : ((w.word ∈ keep_question_words ∧ chunks = [] ∧ cur = []) ∨
        w.word ∉ stopW) ↔
        ((w.word ∈ keep_question_words ∧ e = false) ∨ w.word ∉ stopW) := by
      constructor
      · rintro (⟨hq, hce⟩ | hns)
        · exact Or.inl ⟨hq, he.mpr hce⟩
        · exact Or.inr hns
      · rintro (⟨hq, hef⟩ | hns)
        · exact Or.inl ⟨hq, he.mp hef⟩
        · exact Or.inr hns
    simp only [replaceAux, keepTrace, List.zip_cons_cons]
    by_cases hkeep : (w.word ∈ keep_question_words ∧ chunks = [] ∧ cur = []) ∨
        w.word ∉ stopW
    · rw [if_pos hkeep]
      rw [decide_eq_true (hiff.mp hkeep), Bool.or_true]
      show _ = chunks.map Chunk.words ++
        runsAux (cur ++ [w]) (ws.zip (keepTrace stopW true ws))
      exact ih chunks (cur ++ [w]) true (by simp)
    · rw [if_neg hkeep]
      rw [decide_eq_false (fun hp => hkeep (hiff.mpr hp)), Bool.or_false]
      rw [show runsAux cur ((w, false) :: ws.zip (keepTrace stopW e ws)) =
          (if cur ≠ [] then
            cur :: runsAux [] (ws.zip (keepTrace stopW e ws))
          else runsAux [] (ws.zip (keepTrace stopW e ws))) from rfl]
      by_cases hcur : cur = []
      · simp only [if_neg (show ¬ cur ≠ [] from by simpa using hcur)]
        subst hcur
        exact ih chunks [] e (by simpa using he)
      · simp only [if_pos (show cur ≠ [] from hcur)]
        have he2 : (e = false) ↔
            ((chunks ++ [closeChunk lq cur]) = [] ∧ ([] : List WordPos) = []) := by
          constructor
          · intro hef
            exact absurd (he.mp hef).2 hcur
          · rintro ⟨happ, -⟩
            simp at happ
        rw [ih (chunks ++ [closeChunk lq cur]) [] e he2]
        simp [closeChunk]

/-- Part (a) of the amended C8: the chunks' word lists are exactly the
maximal runs of consecutively retained words — every filtered word ends
the current chunk. -/
lemma chunks_eq_keptRuns (stopW : List String) (lq : String)
    (ws : List WordPos) :
    (replace_stopwords_words stopW lq ws).map Chunk.words =
      keptRuns stopW ws :=
  replaceAux_words stopW lq ws [] [] false (by simp)

lemma runsAux_flatten :
    ∀ (pairs : List (WordPos × Bool)) (cur : List WordPos),
    (runsAux cur pairs).flatten =
      cur ++ pairs.filterMap (fun p => if p.2 then some p.1 else none) := by
  intro pairs
  induction pairs with
  | nil =>
    intro cur
    by_cases hcur : cur = [] <;> simp [runsAux, hcur]
  | cons p rest ih =>
    intro cur
    rcases p with ⟨w, b⟩
    cases b with
    | true => simp [runsAux, ih (cur ++ [w])]
    | false =>
      by_cases hcur : cur = []
      · simp [runsAux, hcur, ih []]
      · simp [runsAux, hcur, ih []]

lemma keepTrace_question (stopW : List String) :
    ∀ (ws : List WordPos) (e : Bool) (i : Nat) (hi : i < ws.length),
    (ws.get ⟨i, hi⟩).word ∈ keep_question_words →
    (ws.get ⟨i, hi⟩).word ∈ stopW →
    ((keepTrace stopW e ws).getD i false = true ↔
      (e = false ∧ ∀ j, j < i →
        (keepTrace stopW e ws).getD j false = false)) := by
  intro ws
  induction ws with
  | nil => intro e i hi; exact absurd hi (by simp)
  | cons w ws ih =>
    intro e i hi hq hs
    cases i with
    | zero =>
      simp only [keepTrace, List.getD_cons_zero]
      constructor
      · intro h
        rcases of_decide_eq_true h with ⟨-, hef⟩ | hns
        · exact ⟨hef, fun j hj => absurd hj (Nat.not_lt_zero j)⟩
        · exact absurd hs hns
      · rintro ⟨hef, -⟩
        exact decide_eq_true (Or.inl ⟨hq, hef⟩)
    | succ i =>
      have hi2 : i < ws.length := Nat.lt_of_succ_lt_succ hi
      simp only [keepTrace, List.getD_cons_succ]
      rw [ih (e || decide ((w.word ∈ keep_question_words ∧ e = false) ∨
        w.word ∉ stopW)) i hi2 hq hs]
      constructor
      · rintro ⟨hef, hall⟩
        rw [Bool.or_eq_false_iff] at hef
        refine ⟨hef.1, ?_⟩
        intro j hj
        cases j with
        | zero => simpa [keepTrace] using hef.2
        | succ j =>
          have := hall j (Nat.lt_of_succ_lt_succ hj)
          simpa [keepTrace] using this
      · rintro ⟨hef, hall⟩
        have hk0 := hall 0 (Nat.succ_pos i)
        simp only [keepTrace, List.getD_cons_zero] at hk0
        constructor
        · rw [Bool.or_eq_false_iff]
          exact ⟨hef, hk0⟩
        · intro j hj
          have := hall (j + 1) (Nat.succ_lt_succ hj)
          simpa [keepTrace] using this

/-- C9 (amended) — the retained words are exactly those the keep-decision
trace marks true, and an interrogative stop word is retained if and only
if no earlier word was retained: the exception fires whenever every
earlier token was filtered out, not only at the first token; once any
token has been retained, later interrogatives are filtered like any other
stop word. -/
theorem interrogative_retention_amended (stopW : List String) (lq : String) :
    ((replace_stopwords stopW lq).flatMap Chunk.words =
      ((tokenize lq).zip (keepTrace stopW false (tokenize lq))).filterMap
        (fun p => if p.2 then some p.1 else none)) ∧
    (∀ i (hi : i < (tokenize lq).length),
      ((tokenize lq).get ⟨i, hi⟩).word ∈ keep_question_words →
      ((tokenize lq).get ⟨i, hi⟩).word ∈ stopW →
      ((keepTrace stopW false (tokenize lq)).getD i false = true ↔
        ∀ j, j < i →
          (keepTrace stopW false (tokenize lq)).getD j false = false)) := by
  constructor
  · rw [List.flatMap_def]
    unfold replace_stopwords
    rw [chunks_eq_keptRuns stopW lq (tokenize lq), keptRuns, runsAux_flatten]
    simp
  · intro i hi hq hs
    rw [keepTrace_question stopW (tokenize lq) false i hi hq hs]
    simp

/-- Witness for the amended C9: in the query "in what orders" every word
before the interrogative "what" is filtered out, and "what" is indeed
retained. -/
theorem interrogative_retention_witness :
    (Pipe.keepTrace Pipe.STOP_WORDS false
        (Pipe.tokenize "in what orders")).getD 1 false = true ↔
      ∀ j, j < 1 →
        (Pipe.keepTrace Pipe.STOP_WORDS false
          (Pipe.tokenize "in what orders")).getD j false = false :=
  (interrogative_retention_amended Pipe.STOP_WORDS "in what orders").2 1
    (by decide) (by decide) (by decide)

/-- C9 counterexample — "what" is an interrogative stop word at the
second token of the normalized query "in what orders" (not the first
token), yet the code retains it: it appears among the chunk words. -/
theorem interrogative_retention_counterexample :
    "what" ∈ Pipe.STOP_WORDS ∧ "what" ∈ Pipe.keep_question_words ∧
    ((Pipe.tokenize "in what orders").get? 1).map WordPos.word =
      some "what" ∧
    (Pipe.replace_stopwords Pipe.STOP_WORDS "in what orders").flatMap
      (fun c => c.words.map WordPos.word) = ["what", "orders"] := by
  decide

end Pipe

namespace Pipe

/-- Token order: a word ends before the next one starts. -/
def wordLe (a b : WordPos) : Prop := a.endPos ≤ b.start

/-- Chunk-span order: a chunk ends before the next one starts. -/
def spanLe (a b : Chunk) : Prop := a.endPos ≤ b.start

lemma closeChunk_endPos (lq : String) (l : List WordPos) (hl : l ≠ []) :
    (closeChunk lq l).endPos = (l.getLast hl).endPos := by
  simp [closeChunk, List.getLast?_eq_getLast l hl]

lemma replaceAux_pairwise (stopW : List String) (lq : String) :
    ∀ (ws : List WordPos) (chunks : List Chunk) (cur : List WordPos),
    List.Pairwise wordLe (cur ++ ws) →
    List.Pairwise spanLe chunks →
    (∀ c ∈ chunks, ∀ w ∈ cur ++ ws, c.endPos ≤ w.start) →
    List.Pairwise spanLe (replaceAux stopW lq chunks cur ws) := by
  intro ws
  induction ws with
  | nil =>
    intro chunks cur h1 h2 h3
    by_cases hcur : cur = []
    · simpa [replaceAux, hcur] using h2
    · rw [show replaceAux stopW lq chunks cur [] =
          (if cur ≠ [] then chunks ++ [closeChunk lq cur] else chunks)
          from rfl, if_pos hcur]
      rcases cur with - | ⟨h, t⟩
      · exact absurd rfl hcur
      apply List.pairwise_append.mpr
      refine ⟨h2, List.pairwise_singleton _ _, ?_⟩
      intro c hc x hx
      rw [List.mem_singleton] at hx
      subst hx
      exact h3 c hc h (by simp)
  | cons w ws ih =>
    intro chunks cur h1 h2 h3
    rw [show replaceAux stopW lq chunks cur (w :: ws) =
        (if (w.word ∈ keep_question_words ∧ chunks = [] ∧ cur = []) ∨
            w.word ∉ stopW then
          replaceAux stopW lq chunks (cur ++ [w]) ws
        else if cur ≠ [] then
          replaceAux stopW lq (chunks ++ [closeChunk lq cur]) [] ws
        else replaceAux stopW lq chunks [] ws) from rfl]
    by_cases hkeep : (w.word ∈ keep_question_words ∧ chunks = [] ∧ cur = []) ∨
        w.word ∉ stopW
    · rw [if_pos hkeep]
      apply ih chunks (cur ++ [w])
      · rw [List.append_assoc]
        simpa using h1
      · exact h2
      · intro c hc x hx
        apply h3 c hc
        rw [List.append_assoc] at hx
        simpa using hx
    · rw [if_neg hkeep]
      by_cases hcur : cur = []
      · rw [if_neg (by simpa using hcur)]
        subst hcur
        apply ih chunks []
        · simpa using h1.of_cons
        · exact h2
        · intro c hc x hx
          exact h3 c hc x (List.mem_cons_of_mem _ hx)
      · rw [if_pos hcur]
        have hsplit := List.pairwise_append.mp h1
        apply ih (chunks ++ [closeChunk lq cur]) []
        · simpa using hsplit.2.1.of_cons
        · apply List.pairwise_append.mpr
          refine ⟨h2, List.pairwise_singleton _ _, ?_⟩
          intro c hc x hx
          rw [List.mem_singleton] at hx
          subst hx
          rcases cur with - | ⟨h, t⟩
          · exact absurd rfl hcur
          exact h3 c hc h (by simp)
        · intro c hc x hx
          simp only [List.nil_append] at hx
          rcases List.mem_append.mp hc with hc1 | hc2
          · exact h3 c hc1 x (List.mem_append_right _ (List.mem_cons_of_mem _ hx))
          · rw [List.mem_singleton] at hc2
            subst hc2
            rw [closeChunk_endPos lq cur hcur]
            exact hsplit.2.2 (cur.getLast hcur) (List.getLast_mem hcur) x
              (List.mem_cons_of_mem _ hx)

/-- The chunk list produced from pairwise-ordered tokens has
pairwise-ordered spans. -/
lemma replace_stopwords_pairwise (stopW : List String) (lq : String)
    (ws : List WordPos) (hws : List.Pairwise wordLe ws) :
    List.Pairwise spanLe (replace_stopwords_words stopW lq ws) :=
  replaceAux_pairwise stopW lq ws [] [] (by simpa using hws) (by simp)
    (by simp)

lemma phrasePass_subset :
    ∀ (cands : List EntityCandidate) (ranges : List (Nat × Nat))
      (c : EntityCandidate), c ∈ phrasePass cands ranges → c ∈ cands := by
  intro cands
  induction cands with
  | nil => intro ranges c h; simp [phrasePass] at h
  | cons a cands ih =>
    intro ranges c h
    unfold phrasePass at h
    split at h
    · split at h
      · exact List.mem_cons_of_mem _ (ih _ _ h)
      · rcases List.mem_cons.mp h with rfl | h2
        · exact List.mem_cons_self _ _
        · exact List.mem_cons_of_mem _ (ih _ _ h2)
    · exact List.mem_cons_of_mem _ (ih _ _ h)

lemma phrasePass_phrase_prefix :
    ∀ (A B : List EntityCandidate) (ranges : List (Nat × Nat)),
    (∀ c ∈ A, c.candidate_type = "chunk") →
    List.Pairwise (fun a b : EntityCandidate => a.endPos ≤ b.start) A →
    (∀ c ∈ A, ∀ r ∈ ranges, r.2 ≤ c.start) →
    phrasePass (A ++ B) ranges =
      A ++ phrasePass B (ranges ++ A.map (fun c => (c.start, c.endPos))) := by
  intro A
  induction A with
  | nil => intro B ranges h1 h2 h3; simp
  | cons a A ih =>
    intro B ranges h1 h2 h3
    have hat : a.candidate_type = "chunk" := h1 a (List.mem_cons_self _ _)
    have hbeq : (a.candidate_type == "chunk" ||
        a.candidate_type == "sub_phrase") = true := by
      rw [hat]
      rfl
    have hany : (ranges.any
        (fun r => decide (¬ (a.endPos ≤ r.1 ∨ r.2 ≤ a.start)))) = false := by
      rw [List.any_eq_false]
      intro r hr
      rw [decide_eq_true_eq]
      exact not_not_intro (Or.inr (h3 a (List.mem_cons_self _ _) r hr))
    have h3a : ∀ c ∈ A, ∀ r ∈ ranges ++ [(a.start, a.endPos)],
        r.2 ≤ c.start := by
      intro c hc r hr
      rcases List.mem_append.mp hr with hr1 | hr2
      · exact h3 c (List.mem_cons_of_mem _ hc) r hr1
      · rw [List.mem_singleton] at hr2
        subst hr2
        exact List.rel_of_pairwise_cons h2 hc
    rw [show phrasePass ((a :: A) ++ B) ranges =
        (if (a.candidate_type == "chunk" ||
            a.candidate_type == "sub_phrase") = true then
          if (ranges.any
              (fun r => decide (¬ (a.endPos ≤ r.1 ∨ r.2 ≤ a.start)))) = true
          then phrasePass (A ++ B) ranges
          else a :: phrasePass (A ++ B) (ranges ++ [(a.start, a.endPos)])
        else phrasePass (A ++ B) ranges) from rfl]
    rw [if_pos hbeq, if_neg (by rw [hany]; exact Bool.false_ne_true)]
    rw [ih B (ranges ++ [(a.start, a.endPos)])
      (fun c hc => h1 c (List.mem_cons_of_mem _ hc)) h2.of_cons h3a]
    simp

lemma phrasePass_no_p1 (B : List EntityCandidate) (rs : List (Nat × Nat))
    (hB : ∀ c ∈ B, c.priority ≠ 1) :
    (phrasePass B rs).filter (fun c => c.priority == 1) = [] := by
  rw [List.filter_eq_nil_iff]
  intro c hc
  simpa using hB c (phrasePass_subset B rs c hc)

lemma mem_subPhrases_fields {lq : String} {chunks : List Chunk}
    {c : EntityCandidate} (h : c ∈ chunks.flatMap (subPhrases lq)) :
    c.candidate_type = "sub_phrase" ∧ c.priority = 2 := by
  rw [List.mem_flatMap] at h
  obtain ⟨ch, -, hc⟩ := h
  unfold subPhrases at hc
  split at hc
  · obtain ⟨p, -, rfl⟩ := List.mem_map.mp hc
    exact ⟨rfl, rfl⟩
  · simp at hc

lemma mem_wordCandidates_fields {chunks : List Chunk} {c : EntityCandidate}
    (h : c ∈ wordCandidates chunks) :
    c.candidate_type = "word" ∧ c.priority = 3 := by
  unfold wordCandidates at h
  rw [List.mem_flatMap] at h
  obtain ⟨ch, -, hc⟩ := h
  obtain ⟨w, -, rfl⟩ := List.mem_map.mp hc
  exact ⟨rfl, rfl⟩

lemma mem_expandedCandidates_fields {chunks : List Chunk}
    {expanded : List (String × List String)} {c : EntityCandidate}
    (h : c ∈ expandedCandidates chunks expanded) :
    c.candidate_type = "expanded_term" ∧ c.priority = 4 := by
  unfold expandedCandidates at h
  rw [List.mem_flatMap] at h
  obtain ⟨p, -, hc⟩ := h
  rcases hf : findWordPos chunks p.1 with - | pos
  · rw [hf] at hc
    simp at hc
  · rw [hf] at hc
    obtain ⟨t, -, rfl⟩ := List.mem_map.mp hc
    exact ⟨rfl, rfl⟩

end Pipe

namespace Pipe

instance : DecidableRel wordLe :=
  fun a b => inferInstanceAs (Decidable (a.endPos ≤ b.start))

instance : DecidableRel spanLe :=
  fun a b => inferInstanceAs (Decidable (a.endPos ≤ b.start))

lemma generate_p1 (expanded : List (String × List String)) (lq : String)
    (chunks : List Chunk) (hpw : List.Pairwise spanLe chunks) :
    (generate_candidates_chunks expanded lq chunks).filter
        (fun c => c.priority == 1) =
      (chunks.filter (fun c => 1 < c.words.length)).map chunkCandidate := by
  have hA1 : ∀ c ∈ (chunks.filter
      (fun c => 1 < c.words.length)).map chunkCandidate,
      c.candidate_type = "chunk" := by
    intro c hc
    obtain ⟨ch, -, rfl⟩ := List.mem_map.mp hc
    rfl
  have hApw : List.Pairwise (fun a b : EntityCandidate => a.endPos ≤ b.start)
      ((chunks.filter (fun c => 1 < c.words.length)).map chunkCandidate) := by
    rw [List.pairwise_map]
    exact (hpw.filter _).imp (fun h => h)
  have hB : ∀ c ∈ chunks.flatMap (subPhrases lq) ++
      (wordCandidates chunks ++ expandedCandidates chunks expanded),
      c.priority ≠ 1 := by
    intro c hc
    rcases List.mem_append.mp hc with h | h
    · rw [(mem_subPhrases_fields h).2]
      decide
    · rcases List.mem_append.mp h with h | h
      · rw [(mem_wordCandidates_fields h).2]
        decide
      · rw [(mem_expandedCandidates_fields h).2]
        decide
  have hNone : ∀ c ∈ (chunks.filter
      (fun c => 1 < c.words.length)).map chunkCandidate ++
      (chunks.flatMap (subPhrases lq) ++
        (wordCandidates chunks ++ expandedCandidates chunks expanded)),
      ¬ (((c.priority == 1) && (c.candidate_type == "word" ||
        c.candidate_type == "expanded_term")) = true) := by
    intro c hc
    rcases List.mem_append.mp hc with h | h
    · obtain ⟨ch, -, rfl⟩ := List.mem_map.mp h
      simp [chunkCandidate, mkCandidate]
    · rcases List.mem_append.mp h with h | h
      · have hf := mem_subPhrases_fields h
        simp [hf.1, hf.2]
      · rcases List.mem_append.mp h with h | h
        · have hf := mem_wordCandidates_fields h
          simp [hf.1, hf.2]
        · have hf := mem_expandedCandidates_fields h
          simp [hf.1, hf.2]
  have hAp1 : ∀ c ∈ (chunks.filter
      (fun c => 1 < c.words.length)).map chunkCandidate,
      ((c.priority == 1) = true) := by
    intro c hc
    obtain ⟨ch, -, rfl⟩ := List.mem_map.mp hc
    rfl
  unfold generate_candidates_chunks
  dsimp only
  rw [List.append_assoc, List.append_assoc, List.filter_append,
    phrasePass_phrase_prefix _ _ [] hA1 hApw (by simp), List.filter_append,
    phrasePass_no_p1 _ _ hB, List.filter_eq_self.mpr hAp1,
    List.filter_filter, List.filter_eq_nil_iff.mpr hNone]
  simp

/-- C8 (amended) — a single intervening filtered-out token does split a
chunk: the chunks' word lists are exactly the maximal runs of
consecutively retained tokens (any filtered token ends the chunk), and
the priority-1 candidates of the generated candidate list are exactly the
chunks spanning at least two retained tokens (single-word chunks are not
emitted as priority-1 candidates), given the tokens' spans in order. -/
theorem chunking_amended (stopW : List String)
    (expanded : List (String × List String)) (lq : String)
    (ws : List WordPos) (hpw : List.Pairwise wordLe ws) :
    ((replace_stopwords_words stopW lq ws).map Chunk.words =
      keptRuns stopW ws) ∧
    ((generate_candidates_chunks expanded lq
        (replace_stopwords_words stopW lq ws)).filter
        (fun c => c.priority == 1) =
      ((replace_stopwords_words stopW lq ws).filter
        (fun c => 1 < c.words.length)).map chunkCandidate) :=
  ⟨chunks_eq_keptRuns stopW lq ws,
   generate_p1 expanded lq _ (replace_stopwords_pairwise stopW lq ws hpw)⟩

/-- Witness for the amended C8 at a concrete query. -/
theorem chunking_amended_witness :
    ((Pipe.replace_stopwords_words Pipe.STOP_WORDS "sales orders in stock"
        (Pipe.tokenize "sales orders in stock")).map Pipe.Chunk.words =
      Pipe.keptRuns Pipe.STOP_WORDS
        (Pipe.tokenize "sales orders in stock")) ∧
    ((Pipe.generate_candidates_chunks [] "sales orders in stock"
        (Pipe.replace_stopwords_words Pipe.STOP_WORDS "sales orders in stock"
          (Pipe.tokenize "sales orders in stock"))).filter
        (fun c => c.priority == 1) =
      ((Pipe.replace_stopwords_words Pipe.STOP_WORDS "sales orders in stock"
        (Pipe.tokenize "sales orders in stock")).filter
        (fun c => 1 < c.words.length)).map Pipe.chunkCandidate) :=
  chunking_amended Pipe.STOP_WORDS [] "sales orders in stock"
    (Pipe.tokenize "sales orders in stock") (by decide)

/-- C8 counterexample — in "product in orders" the retained tokens
"product" and "orders" are separated by exactly one filtered-out token,
yet they end up in two different chunks, and no chunk is emitted as a
priority-1 candidate even though chunks exist. -/
theorem chunking_counterexample :
    ((Pipe.replace_stopwords Pipe.STOP_WORDS "product in orders").map
        (fun c => c.words.map Pipe.WordPos.word) =
      [["product"], ["orders"]]) ∧
    (¬ ∃ c ∈ Pipe.replace_stopwords Pipe.STOP_WORDS "product in orders",
        "product" ∈ c.words.map Pipe.WordPos.word ∧
        "orders" ∈ c.words.map Pipe.WordPos.word) ∧
    ((Pipe.generate_candidates Pipe.STOP_WORDS [] "product in orders").filter
        (fun c => c.priority == 1) = []) ∧
    Pipe.replace_stopwords Pipe.STOP_WORDS "product in orders" ≠ [] := by
  decide

/-- C6 — at a failing input (one candidate that matches an entity
exactly), `_entity_mapping` raises the entatise TypeError instead of
returning entity mappings; its mapping entries, when built at all, carry
no confidence field and are never sorted. -/
theorem entity_mapping_failing_input :
    Pipe.entity_mapping (fun _ _ => 0)
      [Pipe.mkCandidate "client" 0 6 "word" 3]
      [[{ doc := "client",
          meta := { canonical := "Customer", alias_ := "client",
                    entity_group := "CRM", doc_type := "Customer",
                    related_doctypes := "Sales Order" },
          dist := 0 }]] ["CRM"] 2 = Except.error Pipe.PyErr.typeErr := by
  norm_num +decide [Pipe.entity_mapping, Mapper.process, Mapper.processAux,
    Mapper.bestMatchFor, Mapper.bestStep, Mapper.matchConfidence, pyLower,
    pyMax, pySplit, pySplitAux, Pipe.mkCandidate, Pipe.callEntatise]

end Pipe
